import Mathlib

/-!
Verification of the tree-helper functions in src/xmlschema/etree.py:
the equality comparator (etree_elements_assert_equal), the serializer
post-processing (etree_tostring), the path indexer (etree_iterpath and
etree_getpath), the pruner (prune_etree) and the location-hint extractor
(etree_iter_location_hints).

Element trees are modelled by the mutual inductive types XElem / XList
below (XList is the ordered child sequence, isomorphic to List XElem via
XList.toList; the mutual shape is what lets every tree walk be compiled
by structural recursion).  Python object identity is modelled by the eid
field: distinct Python Element objects have distinct ids, and trees
produced by a parser give every node a fresh one.  Comment and
processing-instruction nodes, whose tag is a callable in ElementTree,
are modelled by the Tag.comment constructor.

The comparator's recursion consumes a sorted copy of the child list, so
it cannot be structural; it is written with an explicit fuel parameter
and wrapped with fuel XElem.size.  A fuel lemma shows the result is
independent of the fuel once the fuel dominates the size of the left
tree, so the fuelled definition computes exactly the recursion of the
Python source.
-/

namespace XmlPolish

/-- Tag of a node: a real element name, or the callable comment/PI marker
(ElementTree represents comments by elements whose tag is a function). -/
inductive Tag where
  | name (s : String)
  | comment
deriving DecidableEq, Repr

def Tag.isComment : Tag → Bool
  | .comment => true
  | .name _ => false

mutual
/-- Model of an ElementTree element: identity (eid), tag, attribute
mapping (association list in insertion order), optional text and tail,
and the ordered sequence of children. -/
inductive XElem where
  | mk (eid : Nat) (tag : Tag) (attrib : List (String × String))
       (text : Option String) (tail : Option String) (children : XList)

/-- Ordered sequence of child elements. -/
inductive XList where
  | nil
  | cons (c : XElem) (cs : XList)
end

def XElem.eid : XElem → Nat
  | .mk i _ _ _ _ _ => i

def XElem.tag : XElem → Tag
  | .mk _ t _ _ _ _ => t

def XElem.attrib : XElem → List (String × String)
  | .mk _ _ a _ _ _ => a

def XElem.text : XElem → Option String
  | .mk _ _ _ tx _ _ => tx

def XElem.tail : XElem → Option String
  | .mk _ _ _ _ tl _ => tl

def XElem.children : XElem → XList
  | .mk _ _ _ _ _ cs => cs

def XList.toList : XList → List XElem
  | .nil => []
  | .cons c cs => c :: XList.toList cs

def XList.ofList : List XElem → XList
  | [] => .nil
  | c :: cs => .cons c (XList.ofList cs)



/-- Convenient tree builder taking the children as a plain list. -/
def xe (eid : Nat) (tag : Tag) (attrib : List (String × String))
    (text tail : Option String) (children : List XElem) : XElem :=
  .mk eid tag attrib text tail (XList.ofList children)

/-- The children of an element as a plain list. -/
def XElem.childList (e : XElem) : List XElem :=
  e.children.toList

mutual
/-- Number of nodes of a tree (used as the fuel bound of the
comparator). -/
def XElem.size : XElem → Nat
  | .mk _ _ _ _ _ cs => 1 + XList.size cs

def XList.size : XList → Nat
  | .nil => 0
  | .cons c cs => XElem.size c + XList.size cs
end


/-! ### Python string primitives used by the source -/

/-- The whitespace characters of Python str.strip / str.split / re \s
(ASCII range, which is all the source ever feeds them). -/
def isPySpace (c : Char) : Bool :=
  c = ' ' || c = '\t' || c = '\n' || c = '\r' || c = '\x0b' || c = '\x0c'

/-- Python str.strip() with no argument. -/
def pyStrip (s : String) : String :=
  String.mk (((s.data.dropWhile isPySpace).reverse.dropWhile isPySpace).reverse)

/-- s.startsWith pre, computed on the character lists (the core
String.startsWith is byte-position based and does not evaluate inside
the kernel). -/
def strStartsWith (s pre : String) : Bool :=
  pre.data.isPrefixOf s.data

def splitOnCharAux (sep : Char) : List Char → List Char → List String
  | [], acc => [String.mk acc.reverse]
  | c :: rest, acc =>
    if c = sep then String.mk acc.reverse :: splitOnCharAux sep rest []
    else splitOnCharAux sep rest (c :: acc)

/-- Single-character splitOn, computed on the character lists; agrees
with Python s.split(sep) for a one-character separator. -/
def splitOnChar (sep : Char) (s : String) : List String :=
  splitOnCharAux sep s.data []

def pySplitAux : List Char → List Char → List String
  | [], acc => if acc.isEmpty then [] else [String.mk acc.reverse]
  | c :: rest, acc =>
    if isPySpace c then
      if acc.isEmpty then pySplitAux rest []
      else String.mk acc.reverse :: pySplitAux rest []
    else pySplitAux rest (c :: acc)

/-- Python str.split() with no argument: split on runs of whitespace,
dropping empty pieces. -/
def pySplit (s : String) : List String :=
  pySplitAux s.data []

def subSpacesAux (repl : List Char) : List Char → Bool → List Char
  | [], _ => []
  | c :: rest, inRun =>
    if isPySpace c then
      (if inRun then [] else repl) ++ subSpacesAux repl rest true
    else c :: subSpacesAux repl rest false

/-- Model of _REGEX_SPACES.sub(repl, s): replace each maximal nonempty run
of whitespace in s by repl (the source's regex is compiled from r'\s+'). -/
def regexSpacesSub (repl s : String) : String :=
  String.mk (subSpacesAux repl.data s.data false)

def digitVal (c : Char) : Option Nat :=
  if '0' ≤ c ∧ c ≤ '9' then some (c.toNat - '0'.toNat) else none

def digitsToNat : List Char → Nat → Option Nat
  | [], acc => some acc
  | c :: cs, acc =>
    match digitVal c with
    | some d => digitsToNat cs (acc * 10 + d)
    | none => none

/-- Model of Python float() on the decimal literals the comparator can
meet: optional sign, integer digits, optional fractional part, optional
decimal exponent.  Returns none where Python raises ValueError.  The
value is kept as an exact rational; the source only ever compares two
parses for equality. -/
def pyFloat (s : String) : Option ℚ :=
  let core : List Char → Option ℚ := fun cs =>
    let (mantChars, expPart) :=
      match cs.findIdx? (fun c => c = 'e' || c = 'E') with
      | some i => (cs.take i, some (cs.drop (i+1)))
      | none => (cs, none)
    let mantVal : Option ℚ :=
      match mantChars.findIdx? (fun c => c = '.') with
      | some i =>
        let intPart := mantChars.take i
        let fracPart := mantChars.drop (i+1)
        if intPart.isEmpty ∧ fracPart.isEmpty then none
        else if fracPart.any (fun c => c = '.') then none
        else
          match digitsToNat intPart 0, digitsToNat fracPart 0 with
          | some a, some b => some ((a : ℚ) + (b : ℚ) / ((10 : ℚ) ^ fracPart.length))
          | _, _ => none
      | none =>
        if mantChars.isEmpty then none
        else (digitsToNat mantChars 0).map (fun a => (a : ℚ))
    let expVal : Option Int :=
      match expPart with
      | none => some 0
      | some ec =>
        match ec with
        | '+' :: ds => if ds.isEmpty then none else (digitsToNat ds 0).map Int.ofNat
        | '-' :: ds => if ds.isEmpty then none else (digitsToNat ds 0).map (fun n => -(n : Int))
        | ds => if ds.isEmpty then none else (digitsToNat ds 0).map Int.ofNat
    match mantVal, expVal with
    | some m, some e => some (m * (10 : ℚ) ^ e)
    | _, _ => none
  match s.data with
  | '+' :: rest => core rest
  | '-' :: rest => (core rest).map Neg.neg
  | cs => core cs

/-! ### Python dict operations on the attribute mapping -/

/-- Lookup in an attribute mapping (Python dict indexing). -/
def dGet (l : List (String × String)) (k : String) : Option String :=
  (l.find? (fun p => p.1 = k)).map Prod.snd

/-- The keys of an attribute mapping in insertion order. -/
def dKeys (l : List (String × String)) : List String :=
  l.map Prod.fst

/-- Python dict equality: the same keys bound to the same values,
irrespective of insertion order. -/
def dictEq (a b : List (String × String)) : Bool :=
  (dKeys a).all (fun k => dGet a k == dGet b k) &&
    (dKeys b).all (fun k => dGet a k == dGet b k)


/-! ### Helpers imported from the qnames / namespaces modules

The modules xmlschema/qnames.py and xmlschema/namespaces.py are not part
of the sources under verification; the three helpers below are modelled
from the specification. -/

/-- Modelled from the spec: get_namespace from the missing namespaces
module.  A qualified name has the form of an opening brace, the namespace
URI, a closing brace and the local name; the function returns the URI for
such a tag and the empty string for anything else (including the callable
comment marker, which has no namespace). -/
def get_namespace : Tag → String
  | .comment => ""
  | .name s =>
    if strStartsWith s "\x7b" then
      match splitOnChar '}' (s.drop 1) with
      | u :: _ :: _ => u
      | _ => ""
    else ""

/-- Modelled from the spec: get_qname from the missing qnames module.
Applies a namespace URI to a bare local name, producing the
brace-qualified form; names that already carry a namespace, empty names,
empty URIs and the comment marker are returned unchanged. -/
def get_qname (uri : String) : Tag → Tag
  | .comment => .comment
  | .name s =>
    if uri = "" ∨ s = "" ∨ strStartsWith s "\x7b" then .name s
    else .name ("\x7b" ++ uri ++ "\x7d" ++ s)

/-- Modelled from the spec: get_prefixed_qname from the missing qnames
module, used by the path indexer to convert a brace-qualified tag into
prefix-colon-local display form through the supplied prefix-to-URI
mapping; tags whose URI is not in the mapping, and unqualified tags, are
returned unchanged, and the empty (default) prefix yields the bare local
name. -/
def get_prefixed_qname (qname : String) (nsmap : List (String × String)) : String :=
  if strStartsWith qname "\x7b" then
    match splitOnChar '}' (qname.drop 1) with
    | u :: l :: rest =>
      let localName := String.intercalate "\x7d" (l :: rest)
      match nsmap.find? (fun p => p.2 = u) with
      | some pr => if pr.1 = "" then localName else pr.1 ++ ":" ++ localName
      | none => qname
    | _ => qname
  else qname

/-! ### The serializer post-processing: etree_tostring

etree_tostring (lines 106-176) delegates the raw tree-to-text step to
the backing ElementTree module (an injected capability per the spec;
prefix registration, lines 144-153, belongs to that collaborator).  The
model below takes the backend's output xml_text as its input and
performs the source's post-processing of lines 157-176: declaration
line, tab replacement, line splitting, trailing-blank removal, indent
measurement, truncation and reindentation.  A none result models the
IndexError / ValueError Python raises on lines 162-166 when the output
has no usable lines. -/

def spacesStr (n : Nat) : String :=
  String.mk (List.replicate n ' ')

/-- str.replace of tab characters by n spaces (line 158). -/
def replaceTab (n : Nat) (s : String) : String :=
  String.mk ((s.data.map (fun c => if c = '\t' then List.replicate n ' ' else [c])).flatten)

/-- Python str.splitlines for newline-separated text (the only line
separator the backends emit). -/
def pySplitlines (s : String) : List String :=
  if s.data = [] then []
  else
    let parts := splitOnChar '\n' s
    if s.data.getLast? = some '\n' then parts.dropLast else parts

/-- The while loop of lines 159-160: drop trailing whitespace-only lines. -/
def dropTrailingBlanks (lines : List String) : List String :=
  (lines.reverse.dropWhile (fun l => pyStrip l = "")).reverse

/-- min(k for k in range(len(line)) if line[k] != ' '): the index of the
first non-space character; none models the ValueError on an all-space or
empty line. -/
def firstNonSpaceIdx (s : String) : Option Nat :=
  s.data.findIdx? (fun c => c ≠ ' ')

/-- The minimum of firstNonSpaceIdx over a list of lines (lines 164-166);
none when no line has a non-space character. -/
def minFirstNonSpace (lines : List String) : Option Nat :=
  (lines.filterMap firstNonSpaceIdx).min?

/-- The reindent closure of lines 122-128, with start = minN - indent.length. -/
def reindentLine (indent : String) (minN : Nat) (line : String) : String :=
  if line = "" then line
  else if strStartsWith line (spacesStr minN) then
    if indent.length ≤ minN then line.drop (minN - indent.length)
    else indent.drop minN ++ line
  else indent ++ line

def xmlDeclarationLine : String :=
  "<?xml version=\"1.0\" encoding=\"UTF-8\"?>"

/-- The pre-truncation line list (lines 157-160). -/
def procLines (xmlText : String) (spacesForTab : Nat) (xmlDeclaration : Bool) :
    List String :=
  dropTrailingBlanks
    ((if xmlDeclaration then [xmlDeclarationLine] else []) ++
      pySplitlines (replaceTab spacesForTab xmlText))

/-- The indent measurement of lines 162-171: returns (child_indent,
min_indent) as numbers of spaces, or none where Python raises. -/
def indentsOf (lines : List String) : Option (Nat × Nat) :=
  match lines.getLast? with
  | none => none
  | some last =>
    match firstNonSpaceIdx last with
    | none => none
    | some lastN =>
      if lines.length > 2 then
        match minFirstNonSpace (lines.drop 1 |>.dropLast) with
        | none => none
        | some childN => some (childN, min childN lastN)
      else some (lastN, lastN)

/-- etree_tostring (lines 106-176) applied to the backend output
xml_text. -/
def etree_tostring (xmlText : String) (indent : String) (maxLines : Option Nat)
    (spacesForTab : Nat) (xmlDeclaration : Bool) : Option String :=
  let lines := procLines xmlText spacesForTab xmlDeclaration
  match indentsOf lines with
  | none => none
  | some (childN, minN) =>
    let outLines :=
      match maxLines with
      | some k =>
        if lines.length > k + 2 then
          lines.take k ++ [spacesStr childN ++ "...", spacesStr childN ++ "..."] ++
            [lines.getLast!]
        else lines
      | none => lines
    some (String.intercalate "\n" (outLines.map (reindentLine indent minN)))

/-! ### The path indexer: etree_iterpath and etree_getpath -/

abbrev NsMap := List (String × String)

/-- The display name of a child tag (line 205). -/
def childNameOf (nss : Option NsMap) (s : String) : String :=
  match nss with
  | none => s
  | some m => get_prefixed_qname s m

/-- Lines 206-211: join the parent path and the child name. -/
def joinPath (path name : String) : String :=
  if path = "/" then "/" ++ name
  else if path ≠ "" then path ++ "/" ++ name
  else name

/-- Membership test in the positions Counter of lines 195-199: a tag is
a key iff add_position is set and the tag occurs more than once among
the children (keys are never added afterwards, only their counts are
incremented). -/
def multiOf (addPos : Bool) (children : List XElem) : Tag → Bool :=
  fun t => addPos && decide (1 < (children.map XElem.tag).count t)

def bump (pos : Tag → Nat) (t : Tag) : Tag → Nat :=
  fun u => if u = t then pos u + 1 else pos u

/-- tag == '*' is treated as no filter (lines 190-191). -/
def normTagFilter (tagF : Option Tag) : Option Tag :=
  if tagF = some (.name "*") then none else tagF

def tagMatches (tagF : Option Tag) (t : Tag) : Bool :=
  match tagF with
  | none => true
  | some tg => t = tg

/-- The (child, child_path) assignments of the loop body, lines 201-215:
comments are skipped, the path segment is built with joinPath, and a
position qualifier is appended for tags in the positions counter. -/
def childPairsAux (nss : Option NsMap) (path : String) (multi : Tag → Bool) :
    List XElem → (Tag → Nat) → List (XElem × String)
  | [], _ => []
  | c :: cs, pos =>
    match c.tag with
    | .comment => childPairsAux nss path multi cs pos
    | .name s =>
      let cp := joinPath path (childNameOf nss s)
      if multi (.name s) then
        (c, cp ++ "[" ++ toString (pos (.name s)) ++ "]") ::
          childPairsAux nss path multi cs (bump pos (.name s))
      else (c, cp) :: childPairsAux nss path multi cs pos

mutual
/-- etree_iterpath (lines 179-217): the full list of (element, path)
pairs the generator yields, in order. -/
def etree_iterpath : XElem → Option Tag → String → Option NsMap → Bool →
    List (XElem × String)
  | .mk i t a tx tl cs, tagF, path, nss, addPos =>
    let tf := normTagFilter tagF
    (if tagMatches tf t then [(.mk i t a tx tl cs, path)] else []) ++
      iterpathChildren tf nss addPos path (multiOf addPos cs.toList) cs (fun _ => 1)

/-- The loop of lines 201-217: build each child path (same assignments
as childPairsAux) and recurse into the child. -/
def iterpathChildren (tagF : Option Tag) (nss : Option NsMap) (addPos : Bool)
    (path : String) (multi : Tag → Bool) :
    XList → (Tag → Nat) → List (XElem × String)
  | .nil, _ => []
  | .cons c cs, pos =>
    match c.tag with
    | .comment => iterpathChildren tagF nss addPos path multi cs pos
    | .name s =>
      let cp := joinPath path (childNameOf nss s)
      if multi (.name s) then
        etree_iterpath c tagF (cp ++ "[" ++ toString (pos (.name s)) ++ "]") nss addPos ++
          iterpathChildren tagF nss addPos path multi cs (bump pos (.name s))
      else
        etree_iterpath c tagF cp nss addPos ++
          iterpathChildren tagF nss addPos path multi cs pos
end

/-- '%s' % tag: the raw display of a root tag (line 236-238); the value
for the callable comment marker is its Python repr, which the claims
never reach. -/
def rawTagStr : Tag → String
  | .name s => s
  | .comment => "<function Comment>"

/-- etree_getpath (lines 220-249).  Python object identity (is / in) is
eid equality. -/
def etree_getpath (elem root : XElem) (nss : Option NsMap)
    (relative addPosition parentPath : Bool) : Option String :=
  let path : String :=
    if relative then "."
    else
      match nss with
      | some m =>
        if m = [] then "/" ++ rawTagStr root.tag
        else "/" ++ get_prefixed_qname (rawTagStr root.tag) m
      | none => "/" ++ rawTagStr root.tag
  if parentPath = false then
    ((etree_iterpath root (some elem.tag) path nss addPosition).find?
      (fun p => p.1.eid = elem.eid)).map Prod.snd
  else if (root.childList.map XElem.eid).contains elem.eid then some path
  else
    ((etree_iterpath root (some elem.tag) path nss addPosition).find?
      (fun p => (p.1.childList.map XElem.eid).contains elem.eid)).map Prod.snd

/-! ### The location-hint extractor: etree_iter_location_hints -/

/-- Modelled from the spec: the schema-location attribute name (a
well-known constant of the missing qnames module). -/
def XSI_SCHEMA_LOCATION : String :=
  "{http://www.w3.org/2001/XMLSchema-instance}schemaLocation"

/-- Modelled from the spec: the no-namespace schema-location attribute
name (a well-known constant of the missing qnames module). -/
def XSI_NONS_SCHEMA_LOCATION : String :=
  "{http://www.w3.org/2001/XMLSchema-instance}noNamespaceSchemaLocation"

/-- locations[0::2]. -/
def evens {α : Type} : List α → List α
  | [] => []
  | [a] => [a]
  | a :: _ :: rest => a :: evens rest

/-- locations[1::2]. -/
def odds {α : Type} : List α → List α
  | [] => []
  | _ :: rest => evens rest

/-- etree_iter_location_hints (lines 252-261). -/
def etree_iter_location_hints (e : XElem) : List (String × String) :=
  (match dGet e.attrib XSI_SCHEMA_LOCATION with
   | some s => List.zip (evens (pySplit s)) (odds (pySplit s))
   | none => []) ++
  (match dGet e.attrib XSI_NONS_SCHEMA_LOCATION with
   | some s => (pySplit s).map (fun u => ("", u))
   | none => [])

/-- The whitespace-separated tokens of the xsi:schemaLocation attribute
(empty when the attribute is absent). -/
def slTokens (e : XElem) : List String :=
  match dGet e.attrib XSI_SCHEMA_LOCATION with
  | some s => pySplit s
  | none => []

/-- The whitespace-separated tokens of the
xsi:noNamespaceSchemaLocation attribute (empty when absent). -/
def nnTokens (e : XElem) : List String :=
  match dGet e.attrib XSI_NONS_SCHEMA_LOCATION with
  | some s => pySplit s
  | none => []

/-! ### The pruner: prune_etree -/

mutual
/-- The helper _prune_subtree (lines 376-382): remove the matching
children of a node, then recurse into the surviving children. -/
def pruneSubtree (sel : XElem → Bool) : XElem → XElem
  | .mk i t a tx tl cs => .mk i t a tx tl (pruneList sel cs)

def pruneList (sel : XElem → Bool) : XList → XList
  | .nil => .nil
  | .cons c cs =>
    if sel c then pruneList sel cs
    else .cons (pruneSubtree sel c) (pruneList sel cs)
end

/-- prune_etree (lines 366-387): the resulting tree paired with the
Python return value (some true when the selector matched the root, none
otherwise; del root[:] clears the children in place). -/
def prune_etree (root : XElem) (sel : XElem → Bool) : XElem × Option Bool :=
  if sel root then
    match root with
    | .mk i t a tx tl _ => (.mk i t a tx tl .nil, some true)
  else (pruneSubtree sel root, none)

mutual
/-- The original nodes prune_etree keeps below a non-matching root: a
node survives iff the path from the root down to it crosses no
selector-matching node (the retention reading of C7). -/
def keptNodes (sel : XElem → Bool) : XElem → List XElem
  | .mk i t a tx tl cs => .mk i t a tx tl cs :: keptList sel cs

def keptList (sel : XElem → Bool) : XList → List XElem
  | .nil => []
  | .cons c cs => (if sel c then [] else keptNodes sel c) ++ keptList sel cs
end

/-! ### Spec-side formalization used by C6 -/

/-- The child paths C6 describes: the segment of a non-comment child is
the joined path plus a qualifier exactly when the child's tag occurs
more than once among the parent's children; the qualifier is the
1-based occurrence index of the tag in document order.  seen holds the
tags of the already processed non-comment children. -/
def specChildPaths (allTags : List Tag) (nss : Option NsMap) (path : String) :
    List XElem → List Tag → List (XElem × String)
  | [], _ => []
  | c :: cs, seen =>
    match c.tag with
    | .comment => specChildPaths allTags nss path cs seen
    | .name s =>
      (c, joinPath path (childNameOf nss s) ++
        (if 1 < allTags.count (Tag.name s)
         then "[" ++ toString (seen.count (Tag.name s) + 1) ++ "]" else "")) ::
        specChildPaths allTags nss path cs (seen ++ [Tag.name s])

/-! ### Node enumeration (used to state the claims about whole trees) -/

mutual
/-- All nodes of a tree in preorder, the node itself first. -/
def allNodes : XElem → List XElem
  | .mk i t a tx tl cs => .mk i t a tx tl cs :: allNodesL cs

def allNodesL : XList → List XElem
  | .nil => []
  | .cons c cs => allNodes c ++ allNodesL cs
end


/-- Boolean: no node of the tree is a comment/PI node. -/
def commentFree (e : XElem) : Bool :=
  (allNodes e).all (fun n => !n.tag.isComment)


/-! ### The equality comparator: etree_elements_assert_equal

Faithful embedding of etree_elements_assert_equal (src/xmlschema/etree.py
lines 265-363).  An AssertionError raised by one of the checks becomes
an error value naming the failed check; CmpErr.stripNone is the
AttributeError Python raises in the tail branch when e2.tail is None but
e2.text is not (line 354 calls strip() on None there). -/

inductive CmpErr where
  | moreChildren
  | lesserChildren
  | tagsDiffer
  | attribDiffer
  | attribKeysDiffer
  | attribValueDiffer
  | childrenCountDiffer
  | textsDiffer
  | tailsDiffer
  | stripNone
  | fuelOut
deriving DecidableEq, Repr

instance {ε α : Type} [DecidableEq ε] [DecidableEq α] : DecidableEq (Except ε α) := fun a b =>
  match a, b with
  | .error x, .error y =>
    if h : x = y then .isTrue (h ▸ rfl) else .isFalse (fun he => h (Except.error.inj he))
  | .ok x, .ok y =>
    if h : x = y then .isTrue (h ▸ rfl) else .isFalse (fun he => h (Except.ok.inj he))
  | .error _, .ok _ => .isFalse nofun
  | .ok _, .error _ => .isFalse nofun

/-- Sort key of sorted(elem, key=lambda x: '' if callable(x.tag) else x.tag). -/
def sortKey (e : XElem) : String :=
  match e.tag with
  | .comment => ""
  | .name s => s

/-- The child sequence the loop iterates over: sorted by tag when
unordered (Python's sorted is stable; so is List.mergeSort). -/
def sortedChildren (unordered : Bool) (e : XElem) : List XElem :=
  if unordered then e.childList.mergeSort (fun a b => sortKey a ≤ sortKey b)
  else e.childList

/-- Lines 295-300: the tag check.  Returns the check outcome together
with the updated running namespace (the namespace is only updated in the
non-strict branch, mirroring the assignment on line 298). -/
def checkTag (strict isTop : Bool) (ns : String) (e1 e2 : XElem) :
    Except CmpErr Unit × String :=
  if strict || isTop then
    (if e1.tag = e2.tag then .ok () else .error .tagsDiffer, ns)
  else
    let ns1 := if get_namespace e1.tag ≠ "" then get_namespace e1.tag else ns
    (if get_qname ns1 e1.tag = get_qname ns1 e2.tag then .ok () else .error .tagsDiffer,
     ns1)

/-- Lines 311-318: the per-key attribute value loop of the non-strict
branch (trimmed values must agree, or both parse as the same float). -/
def checkAttrValues (a1 a2 : List (String × String)) : List String → Except CmpErr Unit
  | [] => .ok ()
  | k :: ks =>
    let v1 := pyStrip ((dGet a1 k).getD "")
    let v2 := pyStrip ((dGet a2 k).getD "")
    if v1 = v2 then checkAttrValues a1 a2 ks
    else
      match pyFloat v1, pyFloat v2 with
      | some x, some y => if x = y then checkAttrValues a1 a2 ks else .error .attribValueDiffer
      | _, _ => .error .attribValueDiffer

/-- Lines 302-318: the attribute check. -/
def checkAttribs (strict : Bool) (e1 e2 : XElem) : Except CmpErr Unit :=
  if dictEq e1.attrib e2.attrib then .ok ()
  else if strict then .error .attribDiffer
  else if (dKeys e1.attrib).mergeSort (fun a b => a ≤ b) =
      (dKeys e2.attrib).mergeSort (fun a b => a ≤ b) then
    checkAttrValues e1.attrib e2.attrib (dKeys e1.attrib)
  else .error .attribKeysDiffer

/-- Lines 320-327: the child-count check (comments excluded on both
sides when skip_comments). -/
def elemChildCount (skipComments : Bool) (e : XElem) : Nat :=
  if skipComments then (e.childList.filter (fun c => !c.tag.isComment)).length
  else e.childList.length

/-- Lines 329-342: the text check.  Note the non-strict both-non-None
branch compares _REGEX_SPACES.sub(text.strip(), '') on both sides: the
sub is applied to the empty string (the source swaps the repl and string
arguments), so both sides are always the empty string. -/
def checkText (strict : Bool) (e1 e2 : XElem) : Except CmpErr Unit :=
  if e1.text = e2.text then .ok ()
  else if strict then .error .textsDiffer
  else
    match e1.text, e2.text with
    | none, some t2 => if (pyStrip t2).isEmpty then .ok () else .error .textsDiffer
    | some t1, none => if (pyStrip t1).isEmpty then .ok () else .error .textsDiffer
    | some t1, some t2 =>
      if regexSpacesSub (pyStrip t1) "" ≠ regexSpacesSub (pyStrip t2) "" then
        match pyFloat (pyStrip t1), pyFloat (pyStrip t2) with
        | some x, some y => if x = y then .ok () else .error .textsDiffer
        | _, _ => .error .textsDiffer
      else .ok ()
    | none, none => .ok ()

/-- Lines 344-354: the tail check.  The second non-strict branch tests
e2.text (not e2.tail): exactly as in the source.  When that branch is
not taken and e2.tail is None, Python evaluates None.strip() and dies
with an AttributeError, modelled by CmpErr.stripNone. -/
def checkTail (strict : Bool) (e1 e2 : XElem) : Except CmpErr Unit :=
  if e1.tail = e2.tail then .ok ()
  else if strict then .error .tailsDiffer
  else
    match e1.tail with
    | none =>
      match e2.tail with
      | some t2 => if (pyStrip t2).isEmpty then .ok () else .error .tailsDiffer
      | none => .ok ()
    | some t1 =>
      if e2.text = none then
        if (pyStrip t1).isEmpty then .ok () else .error .tailsDiffer
      else
        match e2.tail with
        | some t2 => if pyStrip t1 = pyStrip t2 then .ok () else .error .tailsDiffer
        | none => .error .stripNone

/-- The for-loop of lines 286-356 over the two child sequences, with the
recursive call abstracted as rec_.  A left comment child is skipped
without consuming a right child (lines 287-288); exhaustion of the right
iterator raises "more children" (line 293); leftover right children
raise "lesser children" (lines 358-363). -/
def cmpLoop (strict skipComments : Bool)
    (rec_ : XElem → XElem → Except CmpErr Unit) (topEid : Nat) :
    String → List XElem → List XElem → Except CmpErr Unit
  | _, [], [] => .ok ()
  | _, [], _ :: _ => .error .lesserChildren
  | ns, e1 :: cs, os =>
    if skipComments && e1.tag.isComment then
      cmpLoop strict skipComments rec_ topEid ns cs os
    else
      match os with
      | [] => .error .moreChildren
      | e2 :: os2 =>
        let tagStep := checkTag strict (e1.eid = topEid) ns e1 e2
        match tagStep.1 with
        | .error err => .error err
        | .ok _ =>
          match checkAttribs strict e1 e2 with
          | .error err => .error err
          | .ok _ =>
            if elemChildCount skipComments e1 = elemChildCount skipComments e2 then
              match checkText strict e1 e2 with
              | .error err => .error err
              | .ok _ =>
                match checkTail strict e1 e2 with
                | .error err => .error err
                | .ok _ =>
                  match rec_ e1 e2 with
                  | .error err => .error err
                  | .ok _ => cmpLoop strict skipComments rec_ topEid tagStep.2 cs os2
            else .error .childrenCountDiffer

/-- Fuelled recursion of etree_elements_assert_equal: one unit of fuel
per recursion level.  fuelOut is unreachable once the fuel dominates the
size of the left tree (assertEqualGo_fuel below). -/
def assertEqualGo (strict skipComments unordered : Bool) :
    Nat → XElem → XElem → Except CmpErr Unit
  | 0, _, _ => .error .fuelOut
  | n+1, elem, other =>
    cmpLoop strict skipComments (assertEqualGo strict skipComments unordered n)
      elem.eid "" (sortedChildren unordered elem) (sortedChildren unordered other)

/-- etree_elements_assert_equal (lines 265-363).  A .ok () result is a
silent return; an .error is the exception the call raises. -/
def etree_elements_assert_equal (elem other : XElem)
    (strict skipComments unordered : Bool) : Except CmpErr Unit :=
  assertEqualGo strict skipComments unordered (XElem.size elem) elem other


/-! ### Concrete trees used in the claim theorems -/

/-- A tree whose only child is a comment node. -/
def tComment : XElem :=
  xe 0 (.name "root") [] none none [xe 1 .comment [] (some " a comment ") none []]

/-- Two trees differing only in the non-numeric text of their child. -/
def tTextFoo : XElem :=
  xe 0 (.name "root") [] none none [xe 1 (.name "c") [] (some "foo") none []]

def tTextBar : XElem :=
  xe 10 (.name "root") [] none none [xe 11 (.name "c") [] (some "bar") none []]

/-- Two trees differing only in numerically equal child texts. -/
def tNum350 : XElem :=
  xe 0 (.name "root") [] none none [xe 1 (.name "c") [] (some " 3.50 ") none []]

def tNum35 : XElem :=
  xe 10 (.name "root") [] none none [xe 11 (.name "c") [] (some "3.5") none []]

/-- Left tree for the tail checks: child tail " x ". -/
def tTailPadded : XElem :=
  xe 0 (.name "root") [] none none [xe 1 (.name "c") [] none (some " x ") []]

/-- Right tree for the tail checks: child tail "x", child text None. -/
def tTailPlain : XElem :=
  xe 10 (.name "root") [] none none [xe 11 (.name "c") [] none (some "x") []]

/-- Left tree for the None-tail branch: child tail " " (whitespace only). -/
def tTailWs : XElem :=
  xe 0 (.name "root") [] none none [xe 1 (.name "c") [] (some "t") (some " ") []]

/-- Right tree for the None-tail branch: child tail None, child text set. -/
def tTailNone : XElem :=
  xe 10 (.name "root") [] none none [xe 11 (.name "c") [] (some "t") none []]

/-- Children tagged with a qualified name then a bare name. -/
def cmpQnLeft : XElem :=
  xe 0 (.name "root") [] none none
    [xe 1 (.name "{http://x}a") [] none none [], xe 2 (.name "b") [] none none []]

/-- Children tagged with a bare name then a qualified name. -/
def cmpQnRight : XElem :=
  xe 10 (.name "root") [] none none
    [xe 11 (.name "a") [] none none [], xe 12 (.name "{http://x}b") [] none none []]

/-- A parent whose children are tagged a, b, a, a (C6's example). -/
def tAbaa : XElem :=
  xe 0 (.name "r") [] none none
    [xe 1 (.name "a") [] none none [], xe 2 (.name "b") [] none none [],
     xe 3 (.name "a") [] none none [], xe 4 (.name "a") [] none none []]

/-- A small tree with x-tagged nodes at several depths. -/
def tPruneRoot : XElem :=
  xe 0 (.name "r") [] none none
    [xe 1 (.name "x") [] none none [xe 2 (.name "y") [] none none []],
     xe 3 (.name "y") [] none none
       [xe 4 (.name "x") [] none none [], xe 5 (.name "z") [] none none []]]

/-- Selector matching every node with tag x. -/
def selX (e : XElem) : Bool :=
  e.tag == Tag.name "x"

/-- An element that occurs in no other tree of this file (eid 99). -/
def tOutside : XElem :=
  xe 99 (.name "a") [] none none []

/-- A root whose subtree does not contain eid 99. -/
def tGetpathRoot : XElem :=
  xe 0 (.name "r") [] none none
    [xe 1 (.name "a") [] none none [xe 2 (.name "a") [] none none []],
     xe 3 (.name "b") [] none none []]

/-- An element with both schema-location attributes, the paired one
carrying a dangling trailing token. -/
def tHints : XElem :=
  xe 0 (.name "r")
    [(XSI_SCHEMA_LOCATION, " ns1 url1  ns2 url2 dangling"),
     (XSI_NONS_SCHEMA_LOCATION, "u3  u4 ")] none none []

/-- An element carrying neither schema-location attribute. -/
def tNoHints : XElem :=
  xe 1 (.name "r") [("other", "v")] none none []

/-- A serializer input with four lines (used by C5's witness). -/
def xmlFour : String :=
  "<a>\n  <b/>\n  <c/>\n</a>"

/-! ### Supporting lemmas -/

/-- Structure induction for XList alone (the generic eliminator of the
mutual family carries a second motive, which the induction tactic does
not accept). -/
theorem XList.inductionOn {P : XList → Prop} (hnil : P .nil)
    (hcons : ∀ c cs, P cs → P (.cons c cs)) (cs : XList) : P cs :=
  @XList.rec (fun _ => True) P (fun _ _ _ _ _ _ _ => trivial) hnil
    (fun c cs _ ih => hcons c cs ih) cs

theorem toList_ofList (l : List XElem) : (XList.ofList l).toList = l := by
  induction l with
  | nil => rfl
  | cons c cs ih => simp [XList.ofList, XList.toList, ih]

theorem one_le_size (e : XElem) : 1 ≤ e.size := by
  cases e with
  | mk i t a tx tl cs => simp [XElem.size]

theorem size_le_of_mem {c : XElem} : ∀ {cs : XList}, c ∈ cs.toList →
    XElem.size c ≤ XList.size cs := by
  intro cs
  induction cs using XList.inductionOn with
  | hnil => intro h; simp [XList.toList] at h
  | hcons d ds ih =>
    intro h
    simp only [XList.toList, List.mem_cons] at h
    rcases h with rfl | h
    · simp [XList.size]
    · have := ih h
      simp only [XList.size]
      omega

theorem size_lt_of_mem_childList {c e : XElem} (h : c ∈ e.childList) :
    XElem.size c < XElem.size e := by
  cases e with
  | mk i t a tx tl cs =>
    have h1 : XElem.size c ≤ XList.size cs := size_le_of_mem h
    simp only [XElem.size]
    omega

theorem dictEq_refl (a : List (String × String)) : dictEq a a = true := by
  simp [dictEq, List.all_eq_true]

theorem self_mem_allNodes (e : XElem) : e ∈ allNodes e := by
  cases e with
  | mk i t a tx tl cs => simp [allNodes]

theorem mem_allNodesL_of_mem {x c : XElem} : ∀ {cs : XList}, c ∈ cs.toList →
    x ∈ allNodes c → x ∈ allNodesL cs := by
  intro cs
  induction cs using XList.inductionOn with
  | hnil => intro h; simp [XList.toList] at h
  | hcons d ds ih =>
    intro h hx
    simp only [XList.toList, List.mem_cons] at h
    rcases h with rfl | h
    · simp only [allNodesL, List.mem_append]; left; exact hx
    · simp only [allNodesL, List.mem_append]; right; exact ih h hx

theorem mem_allNodes_of_child {x c e : XElem} (hc : c ∈ e.childList)
    (hx : x ∈ allNodes c) : x ∈ allNodes e := by
  cases e with
  | mk i t a tx tl cs =>
    simp only [allNodes, List.mem_cons]
    right
    exact mem_allNodesL_of_mem hc hx

theorem mem_allNodes_elim {m e : XElem} (h : m ∈ allNodes e) :
    m = e ∨ ∃ c ∈ e.childList, m ∈ allNodes c := by
  cases e with
  | mk i t a tx tl cs =>
    simp only [allNodes, List.mem_cons] at h
    rcases h with rfl | h
    · exact Or.inl rfl
    · right
      clear * - h
      induction cs using XList.inductionOn with
      | hnil => simp [allNodesL] at h
      | hcons d ds ih =>
        simp only [allNodesL, List.mem_append] at h
        rcases h with h | h
        · exact ⟨d, by simp [XElem.childList, XElem.children, XList.toList], h⟩
        · obtain ⟨c, hc, hmc⟩ := ih h
          refine ⟨c, ?_, hmc⟩
          simp only [XElem.childList, XElem.children, XList.toList, List.mem_cons] at hc ⊢
          exact Or.inr hc

theorem mem_allNodes_trans :
    ∀ {e x m : XElem}, m ∈ allNodes e → x ∈ allNodes m → x ∈ allNodes e := by
  have main : ∀ n e, XElem.size e ≤ n → ∀ x m : XElem,
      m ∈ allNodes e → x ∈ allNodes m → x ∈ allNodes e := by
    intro n
    induction n using Nat.strong_induction_on with
    | _ n ih =>
      intro e he x m hm hx
      rcases mem_allNodes_elim hm with rfl | ⟨c, hc, hmc⟩
      · exact hx
      · have hlt := size_lt_of_mem_childList hc
        have : x ∈ allNodes c :=
          ih (XElem.size c) (by omega) c le_rfl x m hmc hx
        exact mem_allNodes_of_child hc this
  intro e x m hm hx
  exact main (XElem.size e) e le_rfl x m hm hx

theorem commentFree_child {c e : XElem} (he : commentFree e = true)
    (hc : c ∈ e.childList) : commentFree c = true := by
  simp only [commentFree, List.all_eq_true] at he ⊢
  intro x hx
  exact he x (mem_allNodes_of_child hc hx)

theorem commentFree_not_comment {c e : XElem} (he : commentFree e = true)
    (hc : c ∈ e.childList) : c.tag.isComment = false := by
  simp only [commentFree, List.all_eq_true] at he
  have := he c (mem_allNodes_of_child hc (self_mem_allNodes c))
  simpa using this

theorem mem_sortedChildren {c e : XElem} {uo : Bool}
    (h : c ∈ sortedChildren uo e) : c ∈ e.childList := by
  unfold sortedChildren at h
  cases uo with
  | false => simpa using h
  | true => simpa using h


theorem cmpLoop_congr (strict skipComments : Bool)
    (r1 r2 : XElem → XElem → Except CmpErr Unit) (topEid : Nat) :
    ∀ cs, (∀ c ∈ cs, ∀ o, r1 c o = r2 c o) → ∀ ns os,
      cmpLoop strict skipComments r1 topEid ns cs os =
      cmpLoop strict skipComments r2 topEid ns cs os := by
  intro cs
  induction cs with
  | nil => intro _ ns os; cases os <;> rfl
  | cons e1 rest ih =>
    intro h ns os
    have he1 : ∀ o, r1 e1 o = r2 e1 o := h e1 (by simp)
    have hrest : ∀ c ∈ rest, ∀ o, r1 c o = r2 c o :=
      fun c hc => h c (by simp [hc])
    by_cases hskip : (skipComments && e1.tag.isComment) = true
    · simp only [cmpLoop, hskip, if_true]
      exact ih hrest ns os
    · simp only [Bool.not_eq_true] at hskip
      cases os with
      | nil => simp only [cmpLoop, hskip, Bool.false_eq_true, if_false]
      | cons e2 os2 =>
        simp only [cmpLoop, hskip, Bool.false_eq_true, if_false]
        cases htag : (checkTag strict (e1.eid = topEid) ns e1 e2).1 with
        | error err => rfl
        | ok u =>
          cases hattr : checkAttribs strict e1 e2 with
          | error err => rfl
          | ok u2 =>
            by_cases hcount : elemChildCount skipComments e1 = elemChildCount skipComments e2
            · simp only [hcount, if_true]
              cases htext : checkText strict e1 e2 with
              | error err => rfl
              | ok u3 =>
                cases htail : checkTail strict e1 e2 with
                | error err => rfl
                | ok u4 =>
                  rw [he1 e2]
                  cases r2 e1 e2 with
                  | error err => rfl
                  | ok u5 => exact ih hrest _ os2
            · simp only [hcount, if_false]

theorem assertEqualGo_fuel (strict skipComments unordered : Bool) :
    ∀ n m elem other, XElem.size elem ≤ n → XElem.size elem ≤ m →
      assertEqualGo strict skipComments unordered n elem other =
      assertEqualGo strict skipComments unordered m elem other := by
  intro n
  induction n using Nat.strong_induction_on with
  | _ n ih =>
    intro m elem other hn hm
    have h1 := one_le_size elem
    match n, m with
    | 0, _ => omega
    | _+1, 0 => omega
    | n+1, m+1 =>
      simp only [assertEqualGo]
      apply cmpLoop_congr
      intro c hc o
      have hmem := mem_sortedChildren hc
      have hlt := size_lt_of_mem_childList hmem
      exact ih n (by omega) m c o (by omega) (by omega)

theorem checkTag_refl (strict isTop : Bool) (ns : String) (e : XElem) :
    (checkTag strict isTop ns e e).1 = .ok () := by
  unfold checkTag
  by_cases h : (strict || isTop) = true
  · simp [h]
  · simp only [Bool.not_eq_true] at h
    simp [h]

theorem checkAttribs_refl (strict : Bool) (e : XElem) :
    checkAttribs strict e e = .ok () := by
  unfold checkAttribs
  simp [dictEq_refl]

theorem checkText_refl (strict : Bool) (e : XElem) :
    checkText strict e e = .ok () := by
  unfold checkText
  simp

theorem checkTail_refl (strict : Bool) (e : XElem) :
    checkTail strict e e = .ok () := by
  unfold checkTail
  simp

theorem cmpLoop_refl (strict skipComments : Bool)
    (rec_ : XElem → XElem → Except CmpErr Unit) (topEid : Nat) :
    ∀ cs, (∀ c ∈ cs, skipComments = true → c.tag.isComment = false) →
      (∀ c ∈ cs, rec_ c c = .ok ()) →
      ∀ ns, cmpLoop strict skipComments rec_ topEid ns cs cs = .ok () := by
  intro cs
  induction cs with
  | nil => intro _ _ ns; rfl
  | cons e1 rest ih =>
    intro hcm hrec ns
    have hskip : (skipComments && e1.tag.isComment) = false := by
      cases hsc : skipComments with
      | false => simp
      | true => simp [hcm e1 (by simp) hsc]
    simp only [cmpLoop, hskip, Bool.false_eq_true, if_false]
    rw [show ((checkTag strict (e1.eid = topEid) ns e1 e1).1 = .ok ()) from
      checkTag_refl _ _ _ _]
    rw [checkAttribs_refl, checkText_refl, checkTail_refl, hrec e1 (by simp)]
    simp only [if_true]
    exact ih (fun c hc => hcm c (by simp [hc])) (fun c hc => hrec c (by simp [hc])) _

theorem assertEqualGo_refl (strict skipComments unordered : Bool) :
    ∀ n t, XElem.size t ≤ n → (skipComments = false ∨ commentFree t = true) →
      assertEqualGo strict skipComments unordered n t t = .ok () := by
  intro n
  induction n using Nat.strong_induction_on with
  | _ n ih =>
    intro t hn hcf
    have h1 := one_le_size t
    match n with
    | 0 => omega
    | n+1 =>
      simp only [assertEqualGo]
      apply cmpLoop_refl
      · intro c hc hsc
        rcases hcf with hcf | hcf
        · rw [hcf] at hsc; exact absurd hsc (by simp)
        · exact commentFree_not_comment hcf (mem_sortedChildren hc)
      · intro c hc
        have hmem := mem_sortedChildren hc
        have hlt := size_lt_of_mem_childList hmem
        apply ih n (by omega) c (by omega)
        rcases hcf with hcf | hcf
        · exact Or.inl hcf
        · exact Or.inr (commentFree_child hcf hmem)

/-- The comparator only ever examines child pairs: both trees childless
means the loop body never runs, so the call returns silently whatever
the flags and whatever the two nodes carry. -/
theorem assert_equal_childless (e1 e2 : XElem) (strict sk uo : Bool)
    (h1 : e1.childList = []) (h2 : e2.childList = []) :
    etree_elements_assert_equal e1 e2 strict sk uo = .ok () := by
  unfold etree_elements_assert_equal
  obtain ⟨n, hn⟩ : ∃ n, XElem.size e1 = n + 1 :=
    ⟨XElem.size e1 - 1, by have := one_le_size e1; omega⟩
  rw [hn]
  have hs1 : sortedChildren uo e1 = [] := by
    unfold sortedChildren; cases uo <;> simp [h1]
  have hs2 : sortedChildren uo e2 = [] := by
    unfold sortedChildren; cases uo <;> simp [h2]
  simp only [assertEqualGo, hs1, hs2]
  rfl

/-! ### The claims -/

/-- C1: the claim says that with strict=False two both-non-None unequal
texts must fail unless they agree after trimming and whitespace
collapsing or parse as equal floats, so that texts "foo" vs "bar" raise
an AssertionError.  The code does not do this: line 338 passes
e1.text.strip() as the replacement argument of _REGEX_SPACES.sub and the
empty string as the subject, so both sides of the comparison are always
the empty string, the branch is never entered, and any two non-None
texts pass; the trees differing in "foo" vs "bar" compare successfully.
This theorem evaluates the code at the claim's failing input (and at the
numeric pair, which also passes, but only because the dead branch makes
every pair pass). -/
theorem C1_text_branch_result :
    etree_elements_assert_equal tTextFoo tTextBar false true false = .ok () ∧
    etree_elements_assert_equal tNum350 tNum35 false true false = .ok () :=
  ⟨by decide, by decide⟩

/-- C2: the claim states reflexivity for every tree under every flag
combination, including trees with comment children.  It fails for
skip_comments=True on a tree with a comment child: lines 287-288 skip
the left comment without consuming the right iterator, so the
right-hand copy keeps an unmatched child and line 363 raises "lesser
children".  Concretely assert_equal(t, t, strict=True,
skip_comments=True) on a root with one comment child raises. -/
theorem C2_counterexample :
    etree_elements_assert_equal tComment tComment true true false =
      .error .lesserChildren := by
  decide

/-- C2 (amended): assert_equal(t, t) succeeds under every combination of
strict/skip_comments/unordered provided skip_comments is false or the
tree contains no comment/PI nodes. -/
theorem C2_reflexivity_amended (t : XElem) (strict skipComments unordered : Bool)
    (h : skipComments = false ∨ commentFree t = true) :
    etree_elements_assert_equal t t strict skipComments unordered = .ok () :=
  assertEqualGo_refl strict skipComments unordered (XElem.size t) t le_rfl h

/-- C2 witness: the amended reflexivity at the comment-carrying tree
with skip_comments=False, and at a comment-free tree with every flag
set. -/
theorem C2_reflexivity_amended_witness :
    etree_elements_assert_equal tComment tComment false false true = .ok () ∧
    etree_elements_assert_equal tTextFoo tTextFoo true true true = .ok () :=
  ⟨C2_reflexivity_amended tComment false false true (Or.inl rfl),
   C2_reflexivity_amended tTextFoo true true true (Or.inr (by decide))⟩

/-- C3: the claim says the call's top-level pair is compared by exact
tag match when strict=False.  It is not compared at all: the loop only
pairs children, and the e1-is-elem guard of line 295 never fires for a
child of an acyclic tree, so two childless roots with different tags
compare equal (where an exact comparison of the top-level tags would
have to raise). -/
theorem C3_counterexample :
    etree_elements_assert_equal (xe 0 (.name "a") [] none none [])
      (xe 1 (.name "b") [] none none []) false true false = .ok () := by
  decide

/-- C3 (amended): with strict=False the top-level pair's tags are never
compared (any two childless trees compare equal whatever their tags),
and every child pair at every depth is compared through
namespace-normalized qualified names with the running current namespace
carried from the most recent left sibling that had one: a left child
tagged {http://x}a matches a bare right child a, and the namespace
carries to the next sibling pair b / {http://x}b, while strict
comparison of the same trees fails on the tags. -/
theorem C3_amended :
    (∀ (e1 e2 : XElem) (sk uo : Bool), e1.childList = [] → e2.childList = [] →
      etree_elements_assert_equal e1 e2 false sk uo = .ok ()) ∧
    etree_elements_assert_equal cmpQnLeft cmpQnRight false true false = .ok () ∧
    etree_elements_assert_equal cmpQnLeft cmpQnRight true true false =
      .error .tagsDiffer :=
  ⟨fun e1 e2 sk uo h1 h2 => assert_equal_childless e1 e2 false sk uo h1 h2,
   by decide, by decide⟩

/-- C3 witness: the universally quantified part of the amended claim at
two concrete childless trees with different tags, attributes, text and
tail. -/
theorem C3_amended_witness :
    etree_elements_assert_equal (xe 20 (.name "p") [("k", "v")] (some "s") none [])
      (xe 21 (.name "q") [] none (some "w") []) false false true = .ok () :=
  C3_amended.1 (xe 20 (.name "p") [("k", "v")] (some "s") none [])
    (xe 21 (.name "q") [] none (some "w") []) false true rfl rfl

/-- C4: the claim describes symmetric non-strict tail handling (None on
one side needs whitespace-only on the other; two non-None tails must
match after trimming).  The code checks e2.text instead of e2.tail on
line 351, so: tails " x " vs "x" with e2.text None raise an
AssertionError although their trimmed values match, and tails " " vs
None with e2.text set crash with an AttributeError (None.strip()) where
the claim requires success.  This theorem evaluates the code at both
failing inputs. -/
theorem C4_tail_branch_result :
    etree_elements_assert_equal tTailPadded tTailPlain false true false =
      .error .tailsDiffer ∧
    etree_elements_assert_equal tTailWs tTailNone false true false =
      .error .stripNone :=
  ⟨by decide, by decide⟩

/-- C9: a pair of childless nodes is never itself compared: the loop
runs zero iterations and the trailing iterator check passes, so the
call succeeds for every flag combination even when tags, attributes,
text and tail all differ. -/
theorem C9_childless_never_compared (e1 e2 : XElem) (strict sk uo : Bool)
    (h1 : e1.childList = []) (h2 : e2.childList = []) :
    etree_elements_assert_equal e1 e2 strict sk uo = .ok () :=
  assert_equal_childless e1 e2 strict sk uo h1 h2

/-- C9 witness: two childless nodes differing in every field compare
equal under strict=True. -/
theorem C9_childless_never_compared_witness :
    etree_elements_assert_equal (xe 5 (.name "p") [("k", "1")] (some "t") (some "u") [])
      (xe 6 (.name "q") [("j", "2")] (some "v") none []) true true true = .ok () :=
  C9_childless_never_compared (xe 5 (.name "p") [("k", "1")] (some "t") (some "u") [])
    (xe 6 (.name "q") [("j", "2")] (some "v") none []) true true true rfl rfl

/-! ### Lemmas about the slice-and-zip of etree_iter_location_hints -/

theorem length_evens {α : Type} : ∀ l : List α, (evens l).length = (l.length + 1) / 2 := by
  intro l
  induction l using evens.induct with
  | case1 => simp only [evens, List.length_nil]
  | case2 a => simp only [evens, List.length_cons, List.length_nil]
  | case3 a b rest ih =>
    simp only [evens, List.length_cons, ih]
    omega

theorem length_odds {α : Type} (l : List α) : (odds l).length = l.length / 2 := by
  cases l with
  | nil => simp only [odds, List.length_nil]
  | cons a rest =>
    simp only [odds, length_evens, List.length_cons]

theorem get?_evens {α : Type} : ∀ (l : List α) (i : Nat), (evens l).get? i = l.get? (2 * i) := by
  intro l
  induction l using evens.induct with
  | case1 => intro i; rfl
  | case2 a =>
    intro i
    cases i with
    | zero => rfl
    | succ j => cases j <;> rfl
  | case3 a b rest ih =>
    intro i
    cases i with
    | zero => rfl
    | succ j =>
      have h2 : 2 * (j + 1) = 2 * j + 1 + 1 := by omega
      simp only [evens, List.get?_cons_succ, h2, ih]

theorem get?_odds {α : Type} (l : List α) (i : Nat) : (odds l).get? i = l.get? (2 * i + 1) := by
  cases l with
  | nil => rfl
  | cons a rest =>
    simp only [odds, get?_evens, List.get?_cons_succ]

theorem get?_zip {α β : Type} :
    ∀ (a : List α) (b : List β) (i : Nat),
      (a.zip b).get? i =
        (a.get? i).bind (fun x => (b.get? i).map (fun y => (x, y))) := by
  intro a
  induction a with
  | nil => intro b i; cases b <;> cases i <;> rfl
  | cons x xs ih =>
    intro b i
    cases b with
    | nil => cases i <;> simp [List.zip_nil_right]
    | cons y ys =>
      cases i with
      | zero => rfl
      | succ j => simp only [List.zip_cons_cons, List.get?_cons_succ, ih]

theorem hints_eq (e : XElem) :
    etree_iter_location_hints e =
      List.zip (evens (slTokens e)) (odds (slTokens e)) ++
        (nnTokens e).map (fun u => (("" : String), u)) := by
  unfold etree_iter_location_hints slTokens nnTokens
  cases dGet e.attrib XSI_SCHEMA_LOCATION <;>
    cases dGet e.attrib XSI_NONS_SCHEMA_LOCATION <;>
      simp [evens, odds]

theorem length_hints_left (e : XElem) :
    (List.zip (evens (slTokens e)) (odds (slTokens e))).length =
      (slTokens e).length / 2 := by
  rw [List.length_zip, length_evens, length_odds]
  omega

/-- C10: etree_iter_location_hints yields exactly floor(n/2)
(namespace, url) pairs from the n whitespace-separated tokens of
xsi:schemaLocation (an unpaired trailing token is dropped), then one
('', url) entry per token of xsi:noNamespaceSchemaLocation, and nothing
when neither attribute is present. -/
theorem C10_location_hints (e : XElem) :
    (etree_iter_location_hints e).length =
      (slTokens e).length / 2 + (nnTokens e).length ∧
    (∀ i, i < (slTokens e).length / 2 →
      (etree_iter_location_hints e).get? i =
        ((slTokens e).get? (2 * i)).bind
          (fun a => ((slTokens e).get? (2 * i + 1)).map (fun b => (a, b)))) ∧
    (∀ j, (etree_iter_location_hints e).get? ((slTokens e).length / 2 + j) =
      ((nnTokens e).get? j).map (fun u => (("" : String), u))) ∧
    (dGet e.attrib XSI_SCHEMA_LOCATION = none →
      dGet e.attrib XSI_NONS_SCHEMA_LOCATION = none →
      etree_iter_location_hints e = []) := by
  refine ⟨?_, ?_, ?_, ?_⟩
  · rw [hints_eq, List.length_append, length_hints_left, List.length_map]
  · intro i hi
    rw [hints_eq, List.get?_append (by rw [length_hints_left]; exact hi),
      get?_zip, get?_evens, get?_odds]
  · intro j
    rw [hints_eq, List.get?_append_right (by rw [length_hints_left]; omega),
      length_hints_left]
    have : (slTokens e).length / 2 + j - (slTokens e).length / 2 = j := by omega
    rw [this, List.get?_map]
  · intro h1 h2
    unfold etree_iter_location_hints
    rw [h1, h2]
    rfl

/-- C10 witness: the hint list of an element whose schemaLocation
attribute has five tokens and whose noNamespaceSchemaLocation has two,
and emptiness for an element with neither attribute. -/
theorem C10_location_hints_witness :
    (etree_iter_location_hints tHints).get? 1 = some ("ns2", "url2") ∧
    (etree_iter_location_hints tHints).length = 4 ∧
    etree_iter_location_hints tNoHints = [] := by
  refine ⟨?_, ?_, ?_⟩
  · have h := (C10_location_hints tHints).2.1 1 (by decide)
    exact h.trans (by decide)
  · have h := (C10_location_hints tHints).1
    exact h.trans (by decide)
  · exact (C10_location_hints tNoHints).2.2.2 (by decide) (by decide)

/-! ### Lemmas about etree_iterpath for the getpath claim -/

theorem mem_iterpathChildren {p : XElem × String} (tagF : Option Tag)
    (nss : Option NsMap) (ap : Bool) (path : String) (multi : Tag → Bool) :
    ∀ (cs : XList), (∀ c ∈ cs.toList, ∀ pth,
        p ∈ etree_iterpath c tagF pth nss ap → p.1 ∈ allNodes c) →
      ∀ (pos : Tag → Nat),
        p ∈ iterpathChildren tagF nss ap path multi cs pos → p.1 ∈ allNodesL cs := by
  intro cs
  induction cs using XList.inductionOn with
  | hnil =>
    intro _ pos hp
    simp [iterpathChildren] at hp
  | hcons c rest ih =>
    intro hrec pos hp
    have hrecc : ∀ pth, p ∈ etree_iterpath c tagF pth nss ap → p.1 ∈ allNodes c :=
      hrec c (by simp [XList.toList])
    have hrecr : ∀ d ∈ rest.toList, ∀ pth,
        p ∈ etree_iterpath d tagF pth nss ap → p.1 ∈ allNodes d :=
      fun d hd => hrec d (by simp [XList.toList, hd])
    simp only [iterpathChildren] at hp
    simp only [allNodesL, List.mem_append]
    split at hp
    · exact Or.inr (ih hrecr pos hp)
    · split at hp
      · rcases List.mem_append.mp hp with hp | hp
        · exact Or.inl (hrecc _ hp)
        · exact Or.inr (ih hrecr _ hp)
      · rcases List.mem_append.mp hp with hp | hp
        · exact Or.inl (hrecc _ hp)
        · exact Or.inr (ih hrecr _ hp)

theorem mem_iterpath :
    ∀ (n : Nat) (e : XElem), XElem.size e ≤ n → ∀ {p : XElem × String}
      (tagF : Option Tag) (path : String) (nss : Option NsMap) (ap : Bool),
      p ∈ etree_iterpath e tagF path nss ap → p.1 ∈ allNodes e := by
  intro n
  induction n using Nat.strong_induction_on with
  | _ n ih =>
    intro e he p tagF path nss ap hp
    cases e with
    | mk i t a tx tl cs =>
      simp only [etree_iterpath] at hp
      rcases List.mem_append.mp hp with hp | hp
      · by_cases hm : tagMatches (normTagFilter tagF) t = true
        · rw [if_pos hm] at hp
          simp only [List.mem_singleton] at hp
          rw [hp]
          exact self_mem_allNodes _
        · rw [if_neg (by simpa using hm)] at hp
          simp at hp
      · have hstep : ∀ c ∈ cs.toList, ∀ pth,
            p ∈ etree_iterpath c (normTagFilter tagF) pth nss ap → p.1 ∈ allNodes c := by
          intro c hc pth hpc
          have hsz : XElem.size c ≤ XList.size cs := size_le_of_mem hc
          have hlt : XElem.size c < XElem.size (XElem.mk i t a tx tl cs) := by
            simp only [XElem.size]; omega
          exact ih (XElem.size c) (by omega) c le_rfl _ pth nss ap hpc
        have := mem_iterpathChildren (normTagFilter tagF) nss ap path
          (multiOf ap cs.toList) cs hstep (fun _ => 1) hp
        simp only [allNodes, List.mem_cons]
        exact Or.inr this

theorem eid_mem_of_mem_allNodes {x e : XElem} (h : x ∈ allNodes e) :
    x.eid ∈ (allNodes e).map XElem.eid :=
  List.mem_map_of_mem XElem.eid h

/-- C8: when elem does not occur (by identity) anywhere in root's
subtree, etree_getpath returns None instead of raising, for every
combination of the namespaces / relative / add_position / parent_path
arguments. -/
theorem C8_getpath_absent (elem root : XElem) (nss : Option NsMap)
    (relative addPosition parentPath : Bool)
    (h : elem.eid ∉ (allNodes root).map XElem.eid) :
    etree_getpath elem root nss relative addPosition parentPath = none := by
  have hiter : ∀ (pth : String) (p : XElem × String),
      p ∈ etree_iterpath root (some elem.tag) pth nss addPosition →
      p.1 ∈ allNodes root :=
    fun pth p hp => mem_iterpath (XElem.size root) root le_rfl (some elem.tag) pth nss
      addPosition hp
  have hcontains : ∀ x : XElem, x ∈ allNodes root →
      ((x.childList.map XElem.eid).contains elem.eid) = false := by
    intro x hx
    rw [show (x.childList.map XElem.eid).contains elem.eid
        = decide (elem.eid ∈ x.childList.map XElem.eid) from List.elem_eq_mem _ _]
    simp only [decide_eq_false_iff_not, List.mem_map, not_exists]
    rintro c ⟨hc, hceid⟩
    have hcx : c ∈ allNodes x := mem_allNodes_of_child hc (self_mem_allNodes c)
    have hcr : c ∈ allNodes root := mem_allNodes_trans hx hcx
    exact h (hceid ▸ eid_mem_of_mem_allNodes hcr)
  unfold etree_getpath
  cases parentPath with
  | false =>
    have hfind : ∀ pth, (etree_iterpath root (some elem.tag) pth nss addPosition).find?
        (fun p => p.1.eid = elem.eid) = none := by
      intro pth
      apply List.find?_eq_none.mpr
      intro p hp
      simp only [decide_eq_true_eq]
      intro heid
      exact h (heid ▸ eid_mem_of_mem_allNodes (hiter pth p hp))
    simp [hfind]
  | true =>
    have hfind2 : ∀ pth, (etree_iterpath root (some elem.tag) pth nss addPosition).find?
        (fun p => (p.1.childList.map XElem.eid).contains elem.eid) = none := by
      intro pth
      apply List.find?_eq_none.mpr
      intro p hp
      rw [hcontains p.1 (hiter pth p hp)]
      simp
    have hroot := hcontains root (self_mem_allNodes root)
    rw [if_neg (by simp)]
    rw [if_neg (by rw [hroot]; simp)]
    rw [hfind2]
    rfl

/-- C8 witness: a node with a fresh identity is absent from a concrete
tree both with parent_path=False and with parent_path=True. -/
theorem C8_getpath_absent_witness :
    etree_getpath tOutside tGetpathRoot none true false false = none ∧
    etree_getpath tOutside tGetpathRoot none false true true = none :=
  ⟨C8_getpath_absent tOutside tGetpathRoot none true false false (by decide),
   C8_getpath_absent tOutside tGetpathRoot none false true true (by decide)⟩

/-! ### Lemmas about prune_etree for C7 -/

theorem allNodesL_pruneList (sel : XElem → Bool) :
    ∀ cs : XList,
      (∀ c ∈ cs.toList,
        allNodes (pruneSubtree sel c) = (keptNodes sel c).map (pruneSubtree sel)) →
      allNodesL (pruneList sel cs) = (keptList sel cs).map (pruneSubtree sel) := by
  intro cs
  induction cs using XList.inductionOn with
  | hnil => intro _; rfl
  | hcons c rest ih =>
    intro hrec
    have hc := hrec c (by simp [XList.toList])
    have hrest : ∀ d ∈ rest.toList,
        allNodes (pruneSubtree sel d) = (keptNodes sel d).map (pruneSubtree sel) :=
      fun d hd => hrec d (by simp [XList.toList, hd])
    simp only [pruneList, keptList]
    by_cases hs : sel c = true
    · rw [if_pos hs, if_pos hs]
      simp only [List.nil_append]
      exact ih hrest
    · rw [if_neg hs, if_neg hs]
      simp only [allNodesL, List.map_append, hc, ih hrest]

theorem allNodes_pruneSubtree (sel : XElem → Bool) :
    ∀ (n : Nat) (e : XElem), XElem.size e ≤ n →
      allNodes (pruneSubtree sel e) = (keptNodes sel e).map (pruneSubtree sel) := by
  intro n
  induction n using Nat.strong_induction_on with
  | _ n ih =>
    intro e he
    cases e with
    | mk i t a tx tl cs =>
      have hrec : ∀ c ∈ cs.toList,
          allNodes (pruneSubtree sel c) = (keptNodes sel c).map (pruneSubtree sel) := by
        intro c hc
        have h1 : XElem.size c ≤ XList.size cs := size_le_of_mem hc
        have h2 : XElem.size (XElem.mk i t a tx tl cs) = 1 + XList.size cs := rfl
        exact ih (XElem.size c) (by omega) c le_rfl
      simp only [pruneSubtree, allNodes, keptNodes, List.map_cons]
      rw [allNodesL_pruneList sel cs hrec]

theorem mem_keptList_elim (sel : XElem → Bool) {x : XElem} :
    ∀ cs : XList, x ∈ keptList sel cs →
      ∃ c ∈ cs.toList, sel c = false ∧ x ∈ keptNodes sel c := by
  intro cs
  induction cs using XList.inductionOn with
  | hnil => intro hx; simp [keptList] at hx
  | hcons c rest ih =>
    intro hx
    simp only [keptList, List.mem_append] at hx
    rcases hx with hx | hx
    · by_cases hs : sel c = true
      · rw [if_pos hs] at hx; simp at hx
      · rw [if_neg hs] at hx
        exact ⟨c, by simp [XList.toList], by simpa using hs, hx⟩
    · obtain ⟨d, hd, hds, hxd⟩ := ih hx
      exact ⟨d, by simp [XList.toList, hd], hds, hxd⟩

theorem mem_keptNodes_sel (sel : XElem → Bool) :
    ∀ (n : Nat) (e : XElem), XElem.size e ≤ n →
      ∀ x ∈ keptNodes sel e, x = e ∨ sel x = false := by
  intro n
  induction n using Nat.strong_induction_on with
  | _ n ih =>
    intro e he x hx
    cases e with
    | mk i t a tx tl cs =>
      simp only [keptNodes, List.mem_cons] at hx
      rcases hx with rfl | hx
      · exact Or.inl rfl
      · obtain ⟨c, hc, hcs, hxc⟩ := mem_keptList_elim sel cs hx
        have h1 : XElem.size c ≤ XList.size cs := size_le_of_mem hc
        have h2 : XElem.size (XElem.mk i t a tx tl cs) = 1 + XList.size cs := rfl
        rcases ih (XElem.size c) (by omega) c le_rfl x hxc with rfl | hxs
        · exact Or.inr hcs
        · exact Or.inr hxs

/-- C7: prune_etree with a selector matching the root empties the root
in place (same identity, tag, attributes, text and tail, zero children)
and returns True; with a non-matching root it returns None (absent) and
the resulting tree consists exactly of the original nodes reachable
from the root without crossing a selector-matching node — every
matching descendant is detached together with its subtree, every kept
node keeps its payload (pruning only rewrites child sequences), and
every kept node other than the root is non-matching. -/
theorem C7_prune_etree (root : XElem) (sel : XElem → Bool) :
    (sel root = true →
      prune_etree root sel =
        (.mk root.eid root.tag root.attrib root.text root.tail .nil, some true)) ∧
    (sel root = false →
      (prune_etree root sel).2 = none ∧
      allNodes (prune_etree root sel).1 =
        (keptNodes sel root).map (pruneSubtree sel) ∧
      (∀ x ∈ keptNodes sel root, x = root ∨ sel x = false)) ∧
    (∀ e : XElem, (pruneSubtree sel e).eid = e.eid ∧
      (pruneSubtree sel e).tag = e.tag ∧
      (pruneSubtree sel e).attrib = e.attrib ∧
      (pruneSubtree sel e).text = e.text ∧
      (pruneSubtree sel e).tail = e.tail) := by
  refine ⟨?_, ?_, ?_⟩
  · intro hs
    unfold prune_etree
    rw [if_pos hs]
    cases root with
    | mk i t a tx tl cs => rfl
  · intro hs
    unfold prune_etree
    rw [if_neg (by simp [hs])]
    refine ⟨rfl, ?_, ?_⟩
    · exact allNodes_pruneSubtree sel (XElem.size root) root le_rfl
    · exact mem_keptNodes_sel sel (XElem.size root) root le_rfl
  · intro e
    cases e with
    | mk i t a tx tl cs =>
      exact ⟨rfl, rfl, rfl, rfl, rfl⟩

/-- C7 witness: the theorem instantiated at a concrete tree with
x-tagged nodes at two depths (selector false at the root) and at an
x-tagged root (selector true), with the resulting node lists computed. -/
theorem C7_prune_etree_witness :
    ((prune_etree tPruneRoot selX).2 = none ∧
      allNodes (prune_etree tPruneRoot selX).1 =
        (keptNodes selX tPruneRoot).map (pruneSubtree selX)) ∧
    prune_etree (xe 7 (.name "x") [("k", "v")] (some "t") none
        [xe 8 (.name "y") [] none none []]) selX =
      (.mk 7 (.name "x") [("k", "v")] (some "t") none .nil, some true) ∧
    (allNodes (prune_etree tPruneRoot selX).1).map XElem.eid = [0, 3, 5] := by
  have h1 := (C7_prune_etree tPruneRoot selX).2.1 (by decide)
  have h2 := (C7_prune_etree (xe 7 (.name "x") [("k", "v")] (some "t") none
    [xe 8 (.name "y") [] none none []]) selX).1 (by decide)
  exact ⟨⟨h1.1, h1.2.1⟩, h2, by decide⟩

/-! ### Lemmas about the position qualifiers of etree_iterpath (C6) -/

theorem str_append_empty (s : String) : s ++ "" = s := by
  cases s with
  | mk data => show String.mk (data ++ []) = String.mk data; rw [List.append_nil]

/-- The loop of etree_iterpath performs exactly the child-path
assignments of childPairsAux and recurses into each assigned pair. -/
theorem iterpathChildren_eq_bind (tagF : Option Tag) (nss : Option NsMap) (ap : Bool)
    (path : String) (multi : Tag → Bool) :
    ∀ (cs : XList) (pos : Tag → Nat),
      iterpathChildren tagF nss ap path multi cs pos =
        (childPairsAux nss path multi cs.toList pos).bind
          (fun q => etree_iterpath q.1 tagF q.2 nss ap) := by
  intro cs
  induction cs using XList.inductionOn with
  | hnil => intro pos; rfl
  | hcons c rest ih =>
    intro pos
    cases c with
    | mk ci ct ca ctx ctl ccs =>
      cases ct with
      | comment => exact ih pos
      | name s =>
        simp only [iterpathChildren, childPairsAux, XList.toList, XElem.tag]
        by_cases hm : multi (Tag.name s) = true
        · rw [if_pos hm, if_pos hm, ih]; rfl
        · rw [if_neg hm, if_neg hm, ih]; rfl

/-- The child-path assignments with add_position agree with the
specification: a qualifier appears iff the tag occurs more than once
among the children, and its value is the 1-based occurrence index. -/
theorem childPairsAux_eq_spec (nss : Option NsMap) (path : String) (all : List XElem) :
    ∀ (cs : List XElem) (pos : Tag → Nat) (seen : List Tag),
      (∀ s : String, multiOf true all (Tag.name s) = true →
        pos (Tag.name s) = seen.count (Tag.name s) + 1) →
      childPairsAux nss path (multiOf true all) cs pos =
        specChildPaths (all.map XElem.tag) nss path cs seen := by
  intro cs
  induction cs with
  | nil => intro pos seen _; rfl
  | cons c rest ih =>
    intro pos seen hinv
    cases c with
    | mk ci ct ca ctx ctl ccs =>
      cases ct with
      | comment => exact ih pos seen hinv
      | name s =>
        simp only [childPairsAux, specChildPaths, XElem.tag]
        have hcount : (all.map XElem.tag).count (Tag.name s) =
            (List.map XElem.tag all).count (Tag.name s) := rfl
        have hcnt1 : List.count (Tag.name s) [Tag.name s] = 1 := by simp
        by_cases hm : multiOf true all (Tag.name s) = true
        · have hlt : 1 < (List.map XElem.tag all).count (Tag.name s) := by
            have hx := hm
            simp only [multiOf, Bool.true_and, decide_eq_true_eq] at hx
            exact hx
          have hinv2 : ∀ u : String, multiOf true all (Tag.name u) = true →
              bump pos (Tag.name s) (Tag.name u) =
                (seen ++ [Tag.name s]).count (Tag.name u) + 1 := by
            intro u hu
            simp only [bump]
            rw [List.count_append]
            by_cases heq : Tag.name u = Tag.name s
            · rw [if_pos heq, hinv u hu, heq, hcnt1]
            · rw [if_neg heq, hinv u hu]
              have hz : List.count (Tag.name u) [Tag.name s] = 0 := by
                simp only [List.count_cons, List.count_nil]
                have hb : (Tag.name s == Tag.name u) = false := by
                  simp only [beq_eq_false_iff_ne, ne_eq]
                  intro hc
                  exact heq hc.symm
                simp [hb]
              omega
          rw [if_pos hm, if_pos hlt, hinv s hm,
            ih (bump pos (Tag.name s)) (seen ++ [Tag.name s]) hinv2]
          simp [String.append_assoc]
        · have hnlt : ¬ 1 < (List.map XElem.tag all).count (Tag.name s) := by
            intro hc
            apply hm
            simp only [multiOf, Bool.true_and, decide_eq_true_eq]
            exact hc
          have hinv2 : ∀ u : String, multiOf true all (Tag.name u) = true →
              pos (Tag.name u) = (seen ++ [Tag.name s]).count (Tag.name u) + 1 := by
            intro u hu
            rw [List.count_append, hinv u hu]
            have hz : List.count (Tag.name u) [Tag.name s] = 0 := by
              simp only [List.count_cons, List.count_nil]
              have hne : Tag.name u ≠ Tag.name s := by
                intro hc
                rw [hc] at hu
                exact hm hu
              have hb : (Tag.name s == Tag.name u) = false := by
                simp only [beq_eq_false_iff_ne, ne_eq]
                intro hc
                exact hne hc.symm
              simp [hb]
            omega
          rw [if_neg hm, if_neg hnlt, str_append_empty,
            ih pos (seen ++ [Tag.name s]) hinv2]

/-- C6: with add_position set, a child's path segment gets a 1-based
position qualifier exactly when the child's tag occurs more than once
among the parent's children, numbered in document order (the code's
assignments coincide with the specification function); concretely, for
a parent with children tagged a, b, a, a the yielded paths end in a[1],
b, a[2], a[3], in that order. -/
theorem C6_position_qualifiers :
    (∀ (children : List XElem) (nss : Option NsMap) (path : String),
      childPairsAux nss path (multiOf true children) children (fun _ => 1) =
        specChildPaths (children.map XElem.tag) nss path children []) ∧
    (etree_iterpath tAbaa none "." none true).map (fun p => (p.1.eid, p.2)) =
      [(0, "."), (1, "./a[1]"), (2, "./b"), (3, "./a[2]"), (4, "./a[3]")] :=
  ⟨fun children nss path =>
    childPairsAux_eq_spec nss path children children (fun _ => 1) []
      (fun s _ => by simp),
   by decide⟩

/-- C5: when max_lines = k and the post-processed line list L has more
than k+2 lines, the serialized string is the reindentation of: the
first k lines of L, two marker lines built as child_indent followed by
"...", and the final (closing-tag) line of L — the same reindentation
that the untruncated call applies to all of L (the indents are measured
on the full list before truncating, line 162-171 before line 173), so
the output consists of the first k lines of the untruncated output, the
two reindented markers, and the untruncated output's final line: the
root's closing tag always survives truncation. -/
theorem C5_truncation (xmlText indent : String) (sft : Nat) (decl : Bool)
    (k childN minN : Nat)
    (hind : indentsOf (procLines xmlText sft decl) = some (childN, minN))
    (hlen : k + 2 < (procLines xmlText sft decl).length) :
    etree_tostring xmlText indent (some k) sft decl =
      some (String.intercalate "\n"
        (((procLines xmlText sft decl).take k).map (reindentLine indent minN) ++
         [reindentLine indent minN (spacesStr childN ++ "..."),
          reindentLine indent minN (spacesStr childN ++ "...")] ++
         [reindentLine indent minN ((procLines xmlText sft decl).getLast!)])) ∧
    etree_tostring xmlText indent none sft decl =
      some (String.intercalate "\n"
        ((procLines xmlText sft decl).map (reindentLine indent minN))) := by
  constructor
  · simp only [etree_tostring, hind]
    rw [if_pos hlen]
    simp [List.map_append]
  · simp only [etree_tostring, hind]

/-- C5 witness: a four-line serialization truncated at max_lines = 1
keeps the first line, inserts the two child-indented marker lines and
keeps the closing tag. -/
theorem C5_truncation_witness :
    etree_tostring xmlFour "" (some 1) 4 false = some "<a>\n  ...\n  ...\n</a>" ∧
    etree_tostring xmlFour "" none 4 false = some "<a>\n  <b/>\n  <c/>\n</a>" := by
  have h := C5_truncation xmlFour "" 4 false 1 2 0 (by decide) (by decide)
  exact ⟨h.1.trans (by decide), h.2.trans (by decide)⟩

end XmlPolish
